import Mathlib

/-!
Verification of the resources-calc quantity-resolution engine.

The development shallowly embeds the Python modules under `src/calc/`:
`item.py`, `recipe.py`, `recipe_group.py`, `ingredient_tree.py` and
`process_simulator.py`.  Python dictionaries are insertion ordered and
`dict.popitem` removes the most recently inserted entry; the name-keyed
pools of the simulator are therefore embedded as association lists in
insertion order, with `poolAdd` embedding `d.setdefault(n, Item(n, 0)).quantity += q`
and `popitem` embedding `d.popitem()`.  Python integers are unbounded, so
quantities are `Nat` (the spec fixes all quantities as non-negative).
`math.ceil(m / b)` is embedded as exact integer ceiling division; the
documented precondition `batch size >= 1` is carried as a hypothesis
wherever a theorem quantifies over catalogs.
-/

namespace ResourcesCalc

/-- Embeds `calc/item.py`: an item is a name together with a quantity. -/
structure Item where
  name : String
  quantity : Nat
deriving DecidableEq, Repr

/-- Embeds `calc/recipe.py`: a main product (whose quantity is the batch
size), a list of ingredients consumed per batch, and a list of byproducts
emitted per batch. -/
structure Recipe where
  main_product : Item
  ingredients : List Item
  byproducts : List Item
deriving DecidableEq, Repr

/-- Embeds `calc/recipe_group.py`: the catalog is the registration list; the
dict comprehension `{r.main_product.name: r for r in recipes}` keeps the last
recipe registered for each name, embedded here as a left fold where a later
match overrides an earlier one. -/
def get_recipe (rg : List Recipe) (n : String) : Option Recipe :=
  rg.foldl (fun acc r => if r.main_product.name = n then some r else acc) none

/-- Embeds `IngredientTree.get_process_times`: `math.ceil(min_quantity / batch_size)`
as exact integer ceiling division (valid for batch sizes >= 1). -/
def get_process_times (min_quantity batch_size : Nat) : Nat :=
  (min_quantity + batch_size - 1) / batch_size

/-- Embeds `IngredientTree.get_required_quantity`:
`get_process_times(min_quantity, batch_size) * batch_size`. -/
def get_required_quantity (min_quantity batch_size : Nat) : Nat :=
  get_process_times min_quantity batch_size * batch_size

/-- Embeds `d.setdefault(n, Item(n, 0)).quantity += q` on an insertion-ordered
Python dict: if the name is already a key its quantity grows in place, keeping
its position; otherwise a fresh entry is appended at the end. -/
def poolAdd : List Item → String → Nat → List Item
  | [], n, q => [⟨n, q⟩]
  | x :: xs, n, q =>
    if x.name = n then ⟨x.name, x.quantity + q⟩ :: xs else x :: poolAdd xs n q

/-- Embeds `d[n].quantity = v` on an insertion-ordered Python dict: overwrite
the quantity of the entry named `n`, keeping its position (no effect when the
key is absent; the source only assigns to keys it has just looked up). -/
def poolSet : List Item → String → Nat → List Item
  | [], _, _ => []
  | x :: xs, n, v =>
    if x.name = n then ⟨x.name, v⟩ :: xs else x :: poolSet xs n v

/-- Quantity stored for a name in a pool, `0` when the name is absent. -/
def poolLookup (p : List Item) (n : String) : Nat :=
  match p.find? (fun x => x.name = n) with
  | some x => x.quantity
  | none => 0

/-- The names present in a pool, in insertion order. -/
def poolNames (p : List Item) : List String :=
  p.map Item.name

/-- Embeds `dict.popitem()`: removes and returns the most recently inserted
entry, `none` on an empty dict. -/
def popitem (p : List Item) : Option (Item × List Item) :=
  match p.getLast? with
  | some x => some (x, p.dropLast)
  | none => none

/-- One guarded iteration scheme for the surplus-consumption loop: `go` runs
`while 1 <= b and b <= e and b <= q: e -= b; q -= b` for at most `f`
iterations.  Each real iteration subtracts `b >= 1` from `q`, so `q`
iterations always suffice; the bound keeps the recursion structural. -/
def consumeLoopGo : Nat → Nat → Nat → Nat → Nat × Nat
  | 0, _, e, q => (e, q)
  | f + 1, b, e, q =>
    if 1 ≤ b ∧ b ≤ e ∧ b ≤ q then consumeLoopGo f b (e - b) (q - b) else (e, q)

/-- Embeds the surplus-consumption loop of `ProcessSimulator.get_total_costs`
(lines 60 to 67): `while b <= excess and b <= quantity: excess -= b; quantity -= b`,
returning the final `(excess, quantity)`.  The iteration bound `quantity` is
never reached before the guard fails (see `consumeLoop_eq`); the extra
conjunct `1 <= b` in the guard encodes that the source loop runs forever
when the batch size is `0`, a documented precondition violation. -/
def consumeLoop (b excess quantity : Nat) : Nat × Nat :=
  consumeLoopGo quantity b excess quantity

/-- Embeds a node of `calc/ingredient_tree.py`: the requested item, the
quantity actually produced, the child subtrees (one per recipe ingredient)
and the scaled byproducts. -/
structure IngredientTree where
  item : Item
  actual_quantity : Nat
  children : List IngredientTree
  byproducts : List Item

/-- Collects a list of optional values, `none` if any is `none`. -/
def seqOption : List (Option α) → Option (List α)
  | [] => some []
  | none :: _ => none
  | some a :: xs =>
    match seqOption xs with
    | none => none
    | some as => some (a :: as)

/-- Embeds `IngredientTree.__init__` together with `calculate_children`:
look up a recipe for the item; without one the node is a leaf with
`actual_quantity = item.quantity`; with one, `actual_quantity` and the
process count come from the batch math, each ingredient becomes a child
built recursively from `ingredient.quantity * times`, and byproducts are
scaled by `times`.  The source recursion terminates only on acyclic
catalogs, so the embedding spends one unit of fuel per level and returns
`none` when the fuel runs out. -/
def buildTree : Nat → List Recipe → Item → Option IngredientTree
  | 0, _, _ => none
  | fuel + 1, rg, item =>
    match get_recipe rg item.name with
    | none => some ⟨item, item.quantity, [], []⟩
    | some r =>
      let b := r.main_product.quantity
      let times := get_process_times item.quantity b
      let actual := get_required_quantity item.quantity b
      match seqOption (r.ingredients.map
          (fun ing => buildTree fuel rg ⟨ing.name, ing.quantity * times⟩)) with
      | none => none
      | some cs =>
        some ⟨item, actual, cs,
          r.byproducts.map (fun bp => ⟨bp.name, bp.quantity * times⟩)⟩

/-- All nodes of a tree in depth-first pre-order (the node itself first). -/
def allNodes : IngredientTree → List IngredientTree
  | ⟨item, aq, cs, bps⟩ =>
    ⟨item, aq, cs, bps⟩ :: cs.attach.flatMap (fun c => allNodes c.1)
decreasing_by
  have := List.sizeOf_lt_of_mem c.2
  simp only [IngredientTree.mk.sizeOf_spec]
  omega

mutual

/-- Embeds `IngredientTree.__str__`: the line for this node is the ancestor
indentation plus a connector (a backslash-dash for a last child, a
pipe-dash otherwise, nothing at the root), the item name and requested
quantity, an overproduction marker when `actual_quantity` differs from the
requested quantity, and a bracketed byproduct listing when byproducts
exist; child lines follow recursively, each on a fresh line. -/
def render (t : IngredientTree) (level : Nat) (is_last : Bool) (pfx : String) : String :=
  match t with
  | ⟨item, aq, cs, bps⟩ =>
    let indent := if level > 0 then pfx ++ (if is_last then "\\-" else "|-") else ""
    let r1 := indent ++ item.name ++ " x" ++ toString item.quantity
    let r2 := if aq ≠ item.quantity then
        r1 ++ " (+" ++ toString (aq - item.quantity) ++ ")"
      else r1
    let r3 := if bps.isEmpty then r2 else
        r2 ++ " [" ++ ("+ " ++ String.intercalate " + "
          (bps.map (fun bp => bp.name ++ " x" ++ toString bp.quantity))) ++ "]"
    let newPfx := if level > 0 then pfx ++ (if is_last then "  " else "| ") else ""
    r3 ++ renderChildren cs (level + 1) newPfx

/-- Embeds the `for i, child in enumerate(self.children)` loop of
`IngredientTree.__str__`: each child is rendered on its own line, the final
child flagged as last. -/
def renderChildren (cs : List IngredientTree) (level : Nat) (pfx : String) : String :=
  match cs with
  | [] => ""
  | [c] => "\n" ++ render c level true pfx
  | c :: c2 :: rest => "\n" ++ render c level false pfx ++ renderChildren (c2 :: rest) level pfx

end

/-- The four name-keyed pools of `ProcessSimulator.get_total_costs`, each an
insertion-ordered dict embedded as a list. -/
structure SimState where
  total_costs : List Item
  excess_items : List Item
  intermediate_history : List Item
  processing_queue : List Item
deriving DecidableEq, Repr

/-- Embeds one pass of the body of the main loop of
`ProcessSimulator.get_total_costs` (lines 47 to 96), given the popped item
`it` and the remaining queue `rest`: without a recipe the quantity goes to
`total_costs`; with one, banked surplus is consumed batch by batch, the
ingredients are enqueued and the byproducts banked scaled by the process
count, the post-consumption quantity is recorded in the history, and any
overproduction is banked. -/
def stepItem (rg : List Recipe) (it : Item) (rest : List Item) (s : SimState) : SimState :=
  match get_recipe rg it.name with
  | none =>
    { s with processing_queue := rest,
             total_costs := poolAdd s.total_costs it.name it.quantity }
  | some r =>
    let b := r.main_product.quantity
    let eq1 :=
      if it.name ∈ poolNames s.excess_items then
        let ex := poolLookup s.excess_items it.name
        let c := consumeLoop b ex it.quantity
        (poolSet s.excess_items it.name c.1, c.2)
      else (s.excess_items, it.quantity)
    let e1 := eq1.1
    let q1 := eq1.2
    let times := get_process_times q1 b
    let actual := get_required_quantity q1 b
    let queue1 := r.ingredients.foldl
      (fun pq ing => poolAdd pq ing.name (ing.quantity * times)) rest
    let e2 := r.byproducts.foldl
      (fun ep bp => poolAdd ep bp.name (bp.quantity * times)) e1
    let hist1 := poolAdd s.intermediate_history it.name q1
    let e3 := if actual > q1 then poolAdd e2 it.name (actual - q1) else e2
    { total_costs := s.total_costs, excess_items := e3,
      intermediate_history := hist1, processing_queue := queue1 }

/-- One iteration of the main loop: pop the most recently inserted queue
entry and process it; identity on an empty queue (the loop never runs its
body then). -/
def simStep (rg : List Recipe) (s : SimState) : SimState :=
  match popitem s.processing_queue with
  | none => s
  | some (it, rest) => stepItem rg it rest s

/-- Embeds `while processing_queue:` with fuel: the source terminates only
on acyclic catalogs, so the embedding returns `none` when the fuel runs out
before the queue empties. -/
def simLoop : Nat → List Recipe → SimState → Option SimState
  | 0, _, s => if s.processing_queue = [] then some s else none
  | fuel + 1, rg, s =>
    if s.processing_queue = [] then some s else simLoop fuel rg (simStep rg s)

/-- One step of a stable descending insertion sort on quantity: the new
element goes after every element of at least its quantity. -/
def insertDesc (a : Item) : List Item → List Item
  | [] => [a]
  | x :: xs => if a.quantity ≤ x.quantity then x :: insertDesc a xs else a :: x :: xs

/-- Embeds `sorted(..., key=lambda x: x.quantity, reverse=True)`: a stable
sort by quantity descending (the Python sort is stable and `reverse=True`
preserves the original order of equal keys; the stable descending order is
unique, computed here by insertion). -/
def sortDesc (l : List Item) : List Item :=
  l.foldl (fun acc a => insertDesc a acc) []

/-- Embeds `ProcessSimulator.CostsResult`. -/
structure CostsResult where
  total_costs : List Item
  excess_items : List Item
  intermediate_history : List Item
deriving DecidableEq, Repr

/-- Embeds `ProcessSimulator.get_total_costs` on a list of requested items
(a single item is the singleton list): seed the queue by merging the
requests by name, run the loop, then return the cost and excess pools
sorted by quantity descending (stable) and the history in pool order. -/
def get_total_costs (fuel : Nat) (rg : List Recipe) (items : List Item) : Option CostsResult :=
  let seeded : SimState :=
    { total_costs := [], excess_items := [], intermediate_history := [],
      processing_queue := items.foldl (fun pq it => poolAdd pq it.name it.quantity) [] }
  match simLoop fuel rg seeded with
  | none => none
  | some s =>
    some ⟨sortDesc s.total_costs, sortDesc s.excess_items, s.intermediate_history⟩

/-- The simulator state extended with history variables (ghost fields, not
present in the source; they only record what happened).  `slotOrder` lists
the distinct names in the order they were first inserted into the
processing queue; `processedSeq` lists, in order, every name processed
through the has-recipe branch; `consumedG`, `actualG` and `bypG` accumulate
per name the surplus consumed, the `actual_quantity` produced and the
byproduct amounts banked. -/
structure SimStateG where
  total_costs : List Item
  excess_items : List Item
  intermediate_history : List Item
  processing_queue : List Item
  slotOrder : List String
  processedSeq : List String
  consumedG : List Item
  actualG : List Item
  bypG : List Item

/-- The observable part of an instrumented state. -/
def projG (s : SimStateG) : SimState :=
  ⟨s.total_costs, s.excess_items, s.intermediate_history, s.processing_queue⟩

/-- Records a name in the slot order if it was never queued before. -/
def slotAdd (sl : List String) (n : String) : List String :=
  if n ∈ sl then sl else sl ++ [n]

/-- The instrumented pass: the observable fields evolve exactly by
`stepItem`; the ghost fields record the slots assigned, the name processed,
the surplus consumed, the amount produced and the byproducts banked. -/
def stepItemG (rg : List Recipe) (it : Item) (rest : List Item) (s : SimStateG) : SimStateG :=
  let obs := stepItem rg it rest (projG s)
  match get_recipe rg it.name with
  | none =>
    { s with total_costs := obs.total_costs, excess_items := obs.excess_items,
             intermediate_history := obs.intermediate_history,
             processing_queue := obs.processing_queue }
  | some r =>
    let b := r.main_product.quantity
    let cq :=
      if it.name ∈ poolNames s.excess_items then
        let ex := poolLookup s.excess_items it.name
        let c := consumeLoop b ex it.quantity
        (ex - c.1, c.2)
      else (0, it.quantity)
    let times := get_process_times cq.2 b
    let actual := get_required_quantity cq.2 b
    { total_costs := obs.total_costs, excess_items := obs.excess_items,
      intermediate_history := obs.intermediate_history,
      processing_queue := obs.processing_queue,
      slotOrder := r.ingredients.foldl (fun sl ing => slotAdd sl ing.name) s.slotOrder,
      processedSeq := s.processedSeq ++ [it.name],
      consumedG := poolAdd s.consumedG it.name cq.1,
      actualG := poolAdd s.actualG it.name actual,
      bypG := r.byproducts.foldl
        (fun p bp => poolAdd p bp.name (bp.quantity * times)) s.bypG }

/-- Instrumented counterpart of `simStep`. -/
def simStepG (rg : List Recipe) (s : SimStateG) : SimStateG :=
  match popitem s.processing_queue with
  | none => s
  | some (it, rest) => stepItemG rg it rest s

/-- Instrumented counterpart of `simLoop`. -/
def simLoopG : Nat → List Recipe → SimStateG → Option SimStateG
  | 0, _, s => if s.processing_queue = [] then some s else none
  | fuel + 1, rg, s =>
    if s.processing_queue = [] then some s else simLoopG fuel rg (simStepG rg s)

/-- Instrumented counterpart of `get_total_costs`, stopping at the final
pools (before the output sorting) and keeping the ghost records. -/
def runSimG (fuel : Nat) (rg : List Recipe) (items : List Item) : Option SimStateG :=
  let seeded : SimStateG :=
    { total_costs := [], excess_items := [], intermediate_history := [],
      processing_queue := items.foldl (fun pq it => poolAdd pq it.name it.quantity) [],
      slotOrder := items.foldl (fun sl it => slotAdd sl it.name) [],
      processedSeq := [], consumedG := [], actualG := [], bypG := [] }
  simLoopG fuel rg seeded

/-! ### Pool lemmas -/

theorem poolLookup_nil (n : String) : poolLookup [] n = 0 := rfl

theorem poolLookup_cons (x : Item) (xs : List Item) (n : String) :
    poolLookup (x :: xs) n = if x.name = n then x.quantity else poolLookup xs n := by
  by_cases hx : x.name = n
  · simp [poolLookup, List.find?, hx]
  · simp [poolLookup, List.find?, hx]

theorem poolNames_cons (x : Item) (xs : List Item) :
    poolNames (x :: xs) = x.name :: poolNames xs := rfl

theorem poolLookup_poolAdd_self (p : List Item) (n : String) (q : Nat) :
    poolLookup (poolAdd p n q) n = poolLookup p n + q := by
  induction p with
  | nil => simp [poolAdd, poolLookup, List.find?]
  | cons x xs ih =>
    by_cases hx : x.name = n
    · simp [poolAdd, hx, poolLookup_cons]
    · simp [poolAdd, hx, poolLookup_cons, ih]

theorem poolLookup_poolAdd_ne (p : List Item) (n m : String) (q : Nat) (h : m ≠ n) :
    poolLookup (poolAdd p n q) m = poolLookup p m := by
  have hnm : n ≠ m := fun e => h e.symm
  induction p with
  | nil => simp [poolAdd, poolLookup_cons, poolLookup_nil, hnm]
  | cons x xs ih =>
    by_cases hx : x.name = n
    · simp [poolAdd, hx, poolLookup_cons, hnm]
    · simp [poolAdd, hx, poolLookup_cons, ih]

theorem poolNames_poolAdd (p : List Item) (n : String) (q : Nat) :
    poolNames (poolAdd p n q) =
      if n ∈ poolNames p then poolNames p else poolNames p ++ [n] := by
  induction p with
  | nil => simp [poolAdd, poolNames]
  | cons x xs ih =>
    by_cases hx : x.name = n
    · simp [poolAdd, hx, poolNames_cons]
    · rw [show poolAdd (x :: xs) n q = x :: poolAdd xs n q by simp [poolAdd, hx]]
      rw [poolNames_cons, poolNames_cons, ih]
      have hnx : n ≠ x.name := fun e => hx e.symm
      by_cases hm : n ∈ poolNames xs
      · simp [hm, hnx]
      · simp [hm, hnx]

theorem poolLookup_poolSet_self (p : List Item) (n : String) (v : Nat)
    (h : n ∈ poolNames p) : poolLookup (poolSet p n v) n = v := by
  induction p with
  | nil => simp [poolNames] at h
  | cons x xs ih =>
    by_cases hx : x.name = n
    · simp [poolSet, hx, poolLookup_cons]
    · rw [poolNames_cons, List.mem_cons] at h
      simp [poolSet, hx, poolLookup_cons,
        ih (h.resolve_left (fun e => hx e.symm))]

theorem poolLookup_poolSet_ne (p : List Item) (n m : String) (v : Nat) (h : m ≠ n) :
    poolLookup (poolSet p n v) m = poolLookup p m := by
  have hnm : n ≠ m := fun e => h e.symm
  induction p with
  | nil => rfl
  | cons x xs ih =>
    by_cases hx : x.name = n
    · simp [poolSet, hx, poolLookup_cons, hnm]
    · simp [poolSet, hx, poolLookup_cons, ih]

theorem poolNames_poolSet (p : List Item) (n : String) (v : Nat) :
    poolNames (poolSet p n v) = poolNames p := by
  induction p with
  | nil => rfl
  | cons x xs ih =>
    by_cases hx : x.name = n
    · simp [poolSet, hx, poolNames_cons]
    · simp only [poolSet, hx, if_false, poolNames_cons]
      rw [ih]

theorem poolLookup_of_not_mem (p : List Item) (n : String)
    (h : n ∉ poolNames p) : poolLookup p n = 0 := by
  induction p with
  | nil => rfl
  | cons x xs ih =>
    rw [poolNames_cons, List.mem_cons, not_or] at h
    rw [poolLookup_cons, if_neg (fun e => h.1 e.symm)]
    exact ih h.2

/-! ### Batch math and the surplus-consumption loop -/

theorem get_required_quantity_ge (m b : Nat) (hb : 1 ≤ b) :
    m ≤ get_required_quantity m b := by
  unfold get_required_quantity get_process_times
  have hd := Nat.div_add_mod (m + b - 1) b
  have hm := Nat.mod_lt (m + b - 1) (show 0 < b from hb)
  rw [Nat.mul_comm]
  omega

theorem get_required_quantity_dvd (m b : Nat) :
    b ∣ get_required_quantity m b :=
  ⟨get_process_times m b, (Nat.mul_comm (get_process_times m b) b)⟩

theorem get_required_quantity_least (m b k : Nat) (hb : 1 ≤ b)
    (hdvd : b ∣ k) (hk : m ≤ k) : get_required_quantity m b ≤ k := by
  obtain ⟨j, rfl⟩ := hdvd
  unfold get_required_quantity get_process_times
  have h1 : m + b - 1 ≤ b * j + (b - 1) := by omega
  have h2 : (m + b - 1) / b ≤ (b * j + (b - 1)) / b := Nat.div_le_div_right h1
  have h3 : (b * j + (b - 1)) / b = (b - 1) / b + j := by
    rw [Nat.add_comm]
    exact Nat.add_mul_div_left (b - 1) j (show 0 < b from hb)
  have h4 : (b - 1) / b = 0 := Nat.div_eq_of_lt (by omega)
  have h5 : (m + b - 1) / b ≤ j := by omega
  calc (m + b - 1) / b * b ≤ j * b := Nat.mul_le_mul_right b h5
    _ = b * j := Nat.mul_comm j b

theorem get_required_quantity_eq_zero_iff (m b : Nat) (hb : 1 ≤ b) :
    get_required_quantity m b = 0 ↔ m = 0 := by
  constructor
  · intro h
    have := get_required_quantity_ge m b hb
    omega
  · intro h
    subst h
    unfold get_required_quantity get_process_times
    rw [Nat.div_eq_of_lt (by omega)]
    simp

theorem get_process_times_zero (b : Nat) (hb : 1 ≤ b) :
    get_process_times 0 b = 0 := by
  unfold get_process_times
  exact Nat.div_eq_of_lt (by omega)

theorem get_process_times_eq_ceil (m b : Nat) (hb : 1 ≤ b) :
    (get_process_times m b : ℤ) = ⌈(m : ℚ) / (b : ℚ)⌉ := by
  have hb0 : (0 : ℚ) < (b : ℚ) := by exact_mod_cast hb
  have hge : m ≤ get_process_times m b * b := get_required_quantity_ge m b hb
  have hlt : get_process_times m b * b < m + b := by
    unfold get_process_times
    have h := Nat.div_mul_le_self (m + b - 1) b
    omega
  rw [eq_comm, Int.ceil_eq_iff]
  constructor
  · rw [lt_div_iff₀ hb0]
    have h1 : (get_process_times m b : ℚ) * b < (m : ℚ) + b := by exact_mod_cast hlt
    push_cast
    nlinarith
  · rw [div_le_iff₀ hb0]
    exact_mod_cast hge

theorem consumeLoopGo_eq (b : Nat) (hb : 1 ≤ b) :
    ∀ (f e q : Nat), q ≤ f →
      consumeLoopGo f b e q = (e - min e q / b * b, q - min e q / b * b) := by
  intro f
  induction f with
  | zero =>
    intro e q hq
    have hq0 : q = 0 := by omega
    subst hq0
    simp [consumeLoopGo, Nat.min_zero]
  | succ f ih =>
    intro e q hq
    rw [show consumeLoopGo (f + 1) b e q =
        if 1 ≤ b ∧ b ≤ e ∧ b ≤ q then consumeLoopGo f b (e - b) (q - b)
        else (e, q) from rfl]
    by_cases hc : b ≤ e ∧ b ≤ q
    · rw [if_pos ⟨hb, hc.1, hc.2⟩]
      rw [ih (e - b) (q - b) (by omega)]
      have hmin : min (e - b) (q - b) = min e q - b := by omega
      have hminb : b ≤ min e q := by omega
      have hdiv : (min e q - b) / b = min e q / b - 1 := by
        conv_rhs => rw [show min e q = b + (min e q - b) by omega]
        rw [Nat.add_div_left _ (show 0 < b from hb)]
        exact (Nat.succ_sub_one _).symm
      have h1 : 1 ≤ min e q / b := by
        rw [Nat.le_div_iff_mul_le (show 0 < b from hb)]
        omega
      have hbX : b ≤ min e q / b * b := by
        simpa using Nat.mul_le_mul_right b h1
      have hle : min e q / b * b ≤ min e q := Nat.div_mul_le_self _ _
      rw [hmin, hdiv]
      have hsub : (min e q / b - 1) * b = min e q / b * b - b := by
        rw [Nat.sub_mul, Nat.one_mul]
      rw [hsub, Prod.mk.injEq]
      generalize hX : min e q / b * b = X at hbX hle
      constructor <;> omega
    · rw [if_neg (by omega)]
      have hlt : min e q < b := by omega
      rw [Nat.div_eq_of_lt hlt]
      simp

theorem consumeLoop_eq (b e q : Nat) (hb : 1 ≤ b) :
    consumeLoop b e q = (e - min e q / b * b, q - min e q / b * b) :=
  consumeLoopGo_eq b hb q e q (le_refl q)

/-! ### Fold, catalog and projection lemmas -/

/-- Total amount contributed to the name `m` when every entry of `l` is
added scaled by `t`. -/
def contrib (l : List Item) (m : String) (t : Nat) : Nat :=
  ((l.filter (fun bp => bp.name = m)).map (fun bp => bp.quantity * t)).sum

theorem poolLookup_foldl_add (l : List Item) (e : List Item) (m : String) (t : Nat) :
    poolLookup (l.foldl (fun p bp => poolAdd p bp.name (bp.quantity * t)) e) m
      = poolLookup e m + contrib l m t := by
  induction l generalizing e with
  | nil => simp [contrib]
  | cons x xs ih =>
    rw [List.foldl_cons, ih]
    by_cases hx : x.name = m
    · rw [hx, poolLookup_poolAdd_self]
      simp [contrib, List.filter_cons, hx]
      omega
    · rw [poolLookup_poolAdd_ne _ _ _ _ (fun e => hx e.symm)]
      simp [contrib, List.filter_cons, hx]

theorem get_recipe_aux (n : String) (r : Recipe) :
    ∀ (rg : List Recipe) (acc : Option Recipe),
      rg.foldl (fun acc r => if r.main_product.name = n then some r else acc) acc = some r →
      r ∈ rg ∨ acc = some r := by
  intro rg
  induction rg with
  | nil => intro acc h; exact Or.inr h
  | cons x xs ih =>
    intro acc h
    rw [List.foldl_cons] at h
    rcases ih _ h with hx | hx
    · exact Or.inl (List.mem_cons_of_mem _ hx)
    · by_cases hn : x.main_product.name = n
      · rw [if_pos hn] at hx
        have hxr : x = r := Option.some_inj.mp hx
        exact Or.inl (hxr ▸ List.mem_cons_self x xs)
      · rw [if_neg hn] at hx
        exact Or.inr hx

theorem get_recipe_mem (rg : List Recipe) (n : String) (r : Recipe)
    (h : get_recipe rg n = some r) : r ∈ rg := by
  rcases get_recipe_aux n r rg none h with hx | hx
  · exact hx
  · exact absurd hx (by simp)

/-- The distinct names of a list in order of first occurrence. -/
def firstDedup (l : List String) : List String :=
  l.foldl (fun acc n => if n ∈ acc then acc else acc ++ [n]) []

theorem firstDedup_append_single (l : List String) (n : String) :
    firstDedup (l ++ [n]) =
      if n ∈ firstDedup l then firstDedup l else firstDedup l ++ [n] := by
  unfold firstDedup
  rw [List.foldl_append]
  rfl

theorem projG_stepItemG (rg : List Recipe) (it : Item) (rest : List Item) (s : SimStateG) :
    projG (stepItemG rg it rest s) = stepItem rg it rest (projG s) := by
  unfold stepItemG
  cases h : get_recipe rg it.name <;> rfl

theorem projG_simStepG (rg : List Recipe) (s : SimStateG) :
    projG (simStepG rg s) = simStep rg (projG s) := by
  have hq : (projG s).processing_queue = s.processing_queue := rfl
  unfold simStepG simStep
  rw [hq]
  cases h : popitem s.processing_queue with
  | none => rfl
  | some p =>
    obtain ⟨it, rest⟩ := p
    exact projG_stepItemG rg it rest s

theorem simLoop_projG (fuel : Nat) (rg : List Recipe) (s : SimStateG) :
    simLoop fuel rg (projG s) = (simLoopG fuel rg s).map projG := by
  induction fuel generalizing s with
  | zero =>
    by_cases h : s.processing_queue = [] <;> simp [simLoop, simLoopG, projG, h]
  | succ fuel ih =>
    by_cases h : s.processing_queue = []
    · simp [simLoop, simLoopG, projG, h]
    · rw [show simLoop (fuel + 1) rg (projG s) = simLoop fuel rg (simStep rg (projG s)) by
        simp [simLoop, projG, h]]
      rw [show simLoopG (fuel + 1) rg s = simLoopG fuel rg (simStepG rg s) by
        simp [simLoopG, h]]
      rw [← projG_simStepG]
      exact ih _

/-- The observable result of `get_total_costs` is the projection of the
instrumented run: the ghost fields change nothing observable. -/
theorem get_total_costs_eq_runSimG (fuel : Nat) (rg : List Recipe) (items : List Item) :
    get_total_costs fuel rg items = (runSimG fuel rg items).map
      (fun s => ⟨sortDesc s.total_costs, sortDesc s.excess_items, s.intermediate_history⟩) := by
  simp only [get_total_costs, runSimG]
  rw [show (⟨[], [], [],
      items.foldl (fun pq it => poolAdd pq it.name it.quantity) []⟩ : SimState) =
      projG ⟨[], [], [],
        items.foldl (fun pq it => poolAdd pq it.name it.quantity) [],
        items.foldl (fun sl it => slotAdd sl it.name) [], [], [], [], []⟩ from rfl]
  rw [simLoop_projG]
  cases simLoopG fuel rg _ <;> rfl

/-! ### The per-name conservation invariant of the simulator -/

/-- Per name: history recorded plus current surplus plus surplus consumed
equals amount produced plus byproducts banked. -/
def consInv (s : SimStateG) : Prop :=
  ∀ n, poolLookup s.intermediate_history n + poolLookup s.excess_items n
      + poolLookup s.consumedG n
    = poolLookup s.actualG n + poolLookup s.bypG n

theorem consInv_stepItemG (rg : List Recipe) (it : Item) (rest : List Item)
    (s : SimStateG) (hball : ∀ r ∈ rg, 1 ≤ r.main_product.quantity)
    (h : consInv s) : consInv (stepItemG rg it rest s) := by
  intro n
  cases hr : get_recipe rg it.name with
  | none =>
    simp only [stepItemG, stepItem, projG, hr]
    exact h n
  | some r =>
    have hb : 1 ≤ r.main_product.quantity := hball r (get_recipe_mem rg it.name r hr)
    have hinv := h n
    simp only [stepItemG, stepItem, projG, hr]
    by_cases hm : it.name ∈ poolNames s.excess_items
    · simp only [hm, if_true, if_pos]
      have hcl := consumeLoop_eq r.main_product.quantity
        (poolLookup s.excess_items it.name) it.quantity hb
      set k := min (poolLookup s.excess_items it.name) it.quantity
        / r.main_product.quantity * r.main_product.quantity with hk
      have hkle : k ≤ min (poolLookup s.excess_items it.name) it.quantity :=
        Nat.div_mul_le_self _ _
      rw [hcl]
      dsimp only
      by_cases hn : n = it.name
      · subst hn
        have hq1a := get_required_quantity_ge (it.quantity - k) r.main_product.quantity hb
        rw [poolLookup_poolAdd_self]
        rw [poolLookup_poolAdd_self]
        rw [poolLookup_poolAdd_self]
        by_cases hover : get_required_quantity (it.quantity - k) r.main_product.quantity
            > it.quantity - k
        · rw [if_pos hover, poolLookup_poolAdd_self, poolLookup_foldl_add,
            poolLookup_foldl_add, poolLookup_poolSet_self _ _ _ hm]
          omega
        · rw [if_neg hover, poolLookup_foldl_add, poolLookup_foldl_add,
            poolLookup_poolSet_self _ _ _ hm]
          omega
      · rw [poolLookup_poolAdd_ne _ _ _ _ hn, poolLookup_poolAdd_ne _ _ _ _ hn,
          poolLookup_poolAdd_ne _ _ _ _ hn]
        by_cases hover : get_required_quantity (it.quantity - k) r.main_product.quantity
            > it.quantity - k
        · rw [if_pos hover, poolLookup_poolAdd_ne _ _ _ _ hn, poolLookup_foldl_add,
            poolLookup_foldl_add, poolLookup_poolSet_ne _ _ _ _ hn]
          omega
        · rw [if_neg hover, poolLookup_foldl_add, poolLookup_foldl_add,
            poolLookup_poolSet_ne _ _ _ _ hn]
          omega
    · simp only [hm, if_false, if_neg]
      by_cases hn : n = it.name
      · subst hn
        have hq1a := get_required_quantity_ge it.quantity r.main_product.quantity hb
        rw [poolLookup_poolAdd_self, poolLookup_poolAdd_self, poolLookup_poolAdd_self]
        by_cases hover : get_required_quantity it.quantity r.main_product.quantity
            > it.quantity
        · rw [if_pos hover, poolLookup_poolAdd_self, poolLookup_foldl_add,
            poolLookup_foldl_add]
          omega
        · rw [if_neg hover, poolLookup_foldl_add, poolLookup_foldl_add]
          omega
      · rw [poolLookup_poolAdd_ne _ _ _ _ hn, poolLookup_poolAdd_ne _ _ _ _ hn,
          poolLookup_poolAdd_ne _ _ _ _ hn]
        by_cases hover : get_required_quantity it.quantity r.main_product.quantity
            > it.quantity
        · rw [if_pos hover, poolLookup_poolAdd_ne _ _ _ _ hn, poolLookup_foldl_add,
            poolLookup_foldl_add]
          omega
        · rw [if_neg hover, poolLookup_foldl_add, poolLookup_foldl_add]
          omega

theorem simLoopG_preserve (P : SimStateG → Prop) (rg : List Recipe)
    (hstep : ∀ s, P s → P (simStepG rg s)) :
    ∀ (fuel : Nat) (s s' : SimStateG), P s → simLoopG fuel rg s = some s' → P s' := by
  intro fuel
  induction fuel with
  | zero =>
    intro s s' hP hrun
    unfold simLoopG at hrun
    by_cases hq : s.processing_queue = []
    · rw [if_pos hq] at hrun
      exact Option.some_inj.mp hrun ▸ hP
    · rw [if_neg hq] at hrun
      cases hrun
  | succ fuel ih =>
    intro s s' hP hrun
    unfold simLoopG at hrun
    by_cases hq : s.processing_queue = []
    · rw [if_pos hq] at hrun
      exact Option.some_inj.mp hrun ▸ hP
    · rw [if_neg hq] at hrun
      exact ih _ _ (hstep s hP) hrun

theorem consInv_simStepG (rg : List Recipe) (s : SimStateG)
    (hball : ∀ r ∈ rg, 1 ≤ r.main_product.quantity)
    (h : consInv s) : consInv (simStepG rg s) := by
  unfold simStepG
  cases hp : popitem s.processing_queue with
  | none => exact h
  | some p => exact consInv_stepItemG rg p.1 p.2 s hball h

theorem consInv_runSimG (fuel : Nat) (rg : List Recipe) (items : List Item)
    (s : SimStateG) (hball : ∀ r ∈ rg, 1 ≤ r.main_product.quantity)
    (hrun : runSimG fuel rg items = some s) : consInv s := by
  refine simLoopG_preserve consInv rg
    (fun s hs => consInv_simStepG rg s hball hs) fuel _ s ?_ hrun
  intro n
  rfl

/-- The names in the history pool are exactly the distinct processed names
in order of first processing. -/
def histOrderInv (s : SimStateG) : Prop :=
  poolNames s.intermediate_history = firstDedup s.processedSeq

theorem histOrderInv_stepItemG (rg : List Recipe) (it : Item) (rest : List Item)
    (s : SimStateG) (h : histOrderInv s) : histOrderInv (stepItemG rg it rest s) := by
  unfold histOrderInv at h ⊢
  cases hr : get_recipe rg it.name with
  | none =>
    simp only [stepItemG, stepItem, projG, hr]
    exact h
  | some r =>
    simp only [stepItemG, stepItem, projG, hr]
    rw [poolNames_poolAdd, h, firstDedup_append_single]

theorem histOrderInv_simStepG (rg : List Recipe) (s : SimStateG)
    (hs : histOrderInv s) : histOrderInv (simStepG rg s) := by
  unfold simStepG
  cases hp : popitem s.processing_queue with
  | none => exact hs
  | some p => exact histOrderInv_stepItemG rg p.1 p.2 s hs

theorem histOrderInv_runSimG (fuel : Nat) (rg : List Recipe) (items : List Item)
    (s : SimStateG) (hrun : runSimG fuel rg items = some s) : histOrderInv s := by
  refine simLoopG_preserve histOrderInv rg
    (fun s hs => histOrderInv_simStepG rg s hs) fuel _ s ?_ hrun
  rfl

/-! ### Tree lemmas -/

theorem seqOption_mem {α : Type} (l : List (Option α)) (xs : List α) (x : α)
    (hl : seqOption l = some xs) (hx : x ∈ xs) : some x ∈ l := by
  induction l generalizing xs with
  | nil =>
    cases hl
    cases hx
  | cons o os ih =>
    cases o with
    | none => cases hl
    | some a =>
      unfold seqOption at hl
      cases hs : seqOption os with
      | none => rw [hs] at hl; cases hl
      | some as =>
        rw [hs] at hl
        cases hl
        rcases List.mem_cons.mp hx with rfl | hx2
        · exact List.mem_cons_self _ _
        · exact List.mem_cons_of_mem _ (ih as hs hx2)

theorem mem_allNodes (node t : IngredientTree) :
    node ∈ allNodes t ↔ node = t ∨ ∃ c ∈ t.children, node ∈ allNodes c := by
  obtain ⟨item, aq, cs, bps⟩ := t
  rw [allNodes]
  simp [List.mem_flatMap, List.mem_attach]

/-- A tree with all byproduct records removed, at every node. -/
def eraseByp : IngredientTree → IngredientTree
  | ⟨item, aq, cs, _⟩ => ⟨item, aq, cs.attach.map (fun c => eraseByp c.1), []⟩
decreasing_by
  have := List.sizeOf_lt_of_mem c.2
  simp only [IngredientTree.mk.sizeOf_spec]
  omega

theorem eraseByp_mk (item : Item) (aq : Nat) (cs : List IngredientTree) (bps : List Item) :
    eraseByp ⟨item, aq, cs, bps⟩ = ⟨item, aq, cs.map eraseByp, []⟩ := by
  rw [eraseByp]
  congr 1
  rw [List.attach_map_coe]

/-- A catalog with every byproduct list emptied. -/
def stripByp (rg : List Recipe) : List Recipe :=
  rg.map (fun r => ⟨r.main_product, r.ingredients, []⟩)

theorem get_recipe_stripByp_aux (n : String) :
    ∀ (rg : List Recipe) (acc : Option Recipe),
      (stripByp rg).foldl
          (fun acc r => if r.main_product.name = n then some r else acc)
          (acc.map (fun r => ⟨r.main_product, r.ingredients, []⟩)) =
        (rg.foldl (fun acc r => if r.main_product.name = n then some r else acc)
          acc).map (fun r => ⟨r.main_product, r.ingredients, []⟩) := by
  intro rg
  induction rg with
  | nil => intro acc; rfl
  | cons x xs ih =>
    intro acc
    rw [show stripByp (x :: xs) =
      (⟨x.main_product, x.ingredients, []⟩ : Recipe) :: stripByp xs from rfl]
    rw [List.foldl_cons, List.foldl_cons]
    by_cases hn : x.main_product.name = n
    · rw [if_pos hn, if_pos hn]
      rw [show (some (⟨x.main_product, x.ingredients, []⟩ : Recipe)) =
        Option.map (fun r : Recipe => (⟨r.main_product, r.ingredients, []⟩ : Recipe))
          (some x) from rfl]
      exact ih (some x)
    · rw [if_neg hn, if_neg hn]
      exact ih acc

theorem get_recipe_stripByp (rg : List Recipe) (n : String) :
    get_recipe (stripByp rg) n =
      (get_recipe rg n).map (fun r => ⟨r.main_product, r.ingredients, []⟩) :=
  get_recipe_stripByp_aux n rg none

theorem seqOption_map_map {α β : Type} (g : α → β) :
    ∀ (l : List (Option α)),
      seqOption (l.map (Option.map g)) = (seqOption l).map (List.map g) := by
  intro l
  induction l with
  | nil => rfl
  | cons o os ih =>
    cases o with
    | none => rfl
    | some a =>
      rw [List.map_cons]
      rw [show Option.map g (some a) = some (g a) from rfl]
      unfold seqOption
      rw [ih]
      cases seqOption os <;> rfl

/-! ### Concrete catalogs used by the witnesses and counterexamples -/

/-- Scenario A catalog: Wood Plank in batches of 4 from one Log. -/
def catA : List Recipe := [⟨⟨"Wood Plank", 4⟩, [⟨"Log", 1⟩], []⟩]

/-- Scenario B catalog (tree rendering). -/
def catB : List Recipe :=
  [⟨⟨"Wood Plank", 4⟩, [⟨"Log", 1⟩], []⟩,
   ⟨⟨"Stick", 4⟩, [⟨"Wood Plank", 2⟩], []⟩,
   ⟨⟨"Wooden Pickaxe", 1⟩, [⟨"Stick", 2⟩, ⟨"Wood Plank", 3⟩], []⟩]

/-- Scenario C catalog: Wood Plank one at a time from two Wood, with a
Sawdust byproduct. -/
def catC : List Recipe := [⟨⟨"Wood Plank", 1⟩, [⟨"Wood", 2⟩], [⟨"Sawdust", 1⟩]⟩]

/-- A catalog where the same intermediate P (batch 2) is demanded by three
independent passes (via C, B, A), so surplus banked by the first two passes
is consumed by the third. -/
def catP : List Recipe :=
  [⟨⟨"P", 2⟩, [⟨"R", 1⟩], []⟩,
   ⟨⟨"A", 1⟩, [⟨"P", 1⟩], []⟩,
   ⟨⟨"B", 1⟩, [⟨"P", 1⟩], []⟩,
   ⟨⟨"C", 1⟩, [⟨"P", 2⟩], []⟩]

/-- Two independent craftable requests: seeding order A then B, but LIFO
processing handles B first. -/
def cat2 : List Recipe :=
  [⟨⟨"A", 1⟩, [⟨"X", 1⟩], []⟩, ⟨⟨"B", 1⟩, [⟨"Y", 1⟩], []⟩]

/-- A catalog where a byproduct of A banks enough n-surplus to fully cover
the later demand for n. -/
def catN : List Recipe :=
  [⟨⟨"A", 1⟩, [⟨"Z", 1⟩], [⟨"n", 2⟩]⟩, ⟨⟨"n", 2⟩, [⟨"R", 1⟩], []⟩]

/-- The final instrumented state of the `catP` run. -/
def c1state : SimStateG :=
  (runSimG 40 catP [⟨"C", 1⟩, ⟨"B", 1⟩, ⟨"A", 1⟩]).getD ⟨[], [], [], [], [], [], [], [], []⟩

/-- The final instrumented state of the `cat2` run. -/
def c2state : SimStateG :=
  (runSimG 40 cat2 [⟨"A", 1⟩, ⟨"B", 1⟩]).getD ⟨[], [], [], [], [], [], [], [], []⟩

/-- The final instrumented state of the scenario A run. -/
def cAstate : SimStateG :=
  (runSimG 20 catA [⟨"Wood Plank", 5⟩]).getD ⟨[], [], [], [], [], [], [], [], []⟩

/-- The result of the `catN` run. -/
def c10res : CostsResult :=
  (get_total_costs 40 catN [⟨"n", 2⟩, ⟨"A", 1⟩]).getD ⟨[], [], []⟩

/-! ### The claims -/

/-- Claim C3: while the queue is non-empty, the entry removed by `popitem`
is the most recently inserted pending entry (the queue list keeps the
first-insertion order of the pending names, so the popped entry is the most
recently first-inserted not-yet-removed name), and `poolAdd` on a name
already pending keeps the name order unchanged, adds the quantity to that
name alone, and leaves every other pending quantity unchanged. -/
theorem C3_queue_discipline :
    (∀ (p : List Item) (x : Item) (rest : List Item),
        popitem p = some (x, rest) → p = rest ++ [x]) ∧
    (∀ (p : List Item) (n : String) (q : Nat), n ∈ poolNames p →
        poolNames (poolAdd p n q) = poolNames p ∧
        poolLookup (poolAdd p n q) n = poolLookup p n + q ∧
        ∀ m, m ≠ n → poolLookup (poolAdd p n q) m = poolLookup p m) := by
  constructor
  · intro p x rest h
    unfold popitem at h
    cases hl : p.getLast? with
    | none => rw [hl] at h; cases h
    | some y =>
      rw [hl] at h
      have hx : y = x ∧ p.dropLast = rest := by
        constructor <;> cases h <;> rfl
      rcases List.getLast?_eq_some_iff.mp hl with ⟨l, rfl⟩
      rw [← hx.2, ← hx.1]
      simp
  · intro p n q hmem
    exact ⟨by rw [poolNames_poolAdd, if_pos hmem],
      poolLookup_poolAdd_self p n q,
      fun m hm => poolLookup_poolAdd_ne p n m q hm⟩

/-- Witness for C3 at a concrete queue. -/
theorem C3_queue_discipline_witness :
    ([⟨"a", 1⟩, ⟨"b", 2⟩] : List Item) = [⟨"a", 1⟩] ++ [⟨"b", 2⟩] ∧
    poolNames (poolAdd [⟨"a", 1⟩, ⟨"b", 2⟩] "a" 3) =
      poolNames [⟨"a", 1⟩, ⟨"b", 2⟩] :=
  ⟨C3_queue_discipline.1 [⟨"a", 1⟩, ⟨"b", 2⟩] ⟨"b", 2⟩ [⟨"a", 1⟩] rfl,
   (C3_queue_discipline.2 [⟨"a", 1⟩, ⟨"b", 2⟩] "a" 3 (by decide)).1⟩

/-- Claim C4: for `b >= 1`, `get_required_quantity m b` is the least
multiple of `b` at least `m`, vanishing exactly when `m` does, and
`get_process_times m b` is the exact integer ceiling of `m / b`, zero when
`m` is zero. -/
theorem C4_batch_math (m b : Nat) (hb : 1 ≤ b) :
    (b ∣ get_required_quantity m b ∧ m ≤ get_required_quantity m b ∧
      ∀ k, b ∣ k → m ≤ k → get_required_quantity m b ≤ k) ∧
    (get_required_quantity m b = 0 ↔ m = 0) ∧
    (get_process_times m b : ℤ) = ⌈(m : ℚ) / (b : ℚ)⌉ ∧
    (m = 0 → get_process_times m b = 0) :=
  ⟨⟨get_required_quantity_dvd m b, get_required_quantity_ge m b hb,
    fun k => get_required_quantity_least m b k hb⟩,
   get_required_quantity_eq_zero_iff m b hb,
   get_process_times_eq_ceil m b hb,
   fun h => by rw [h]; exact get_process_times_zero b hb⟩

/-- Witness for C4 at `m = 5`, `b = 4`. -/
theorem C4_batch_math_witness :
    (1 : Nat) ≤ 4 ∧ 5 ≤ get_required_quantity 5 4 ∧
      (get_required_quantity 5 4 = 0 ↔ (5 : Nat) = 0) :=
  ⟨by decide, (C4_batch_math 5 4 (by decide)).1.2.1,
   (C4_batch_math 5 4 (by decide)).2.1⟩

/-- Claim C8: for `b >= 1` the batch-at-a-time surplus-consumption loop
terminates (it is a total function here) and its result is exactly the O(1)
replacement subtracting `min excess quantity / b * b` from both sides. -/
theorem C8_consume_equiv (b excess quantity : Nat) (hb : 1 ≤ b) :
    consumeLoop b excess quantity =
      (excess - min excess quantity / b * b,
       quantity - min excess quantity / b * b) :=
  consumeLoop_eq b excess quantity hb

/-- Witness for C8 at `b = 2`, `excess = 5`, `quantity = 3`. -/
theorem C8_consume_equiv_witness :
    consumeLoop 2 5 3 = (5 - min 5 3 / 2 * 2, 3 - min 5 3 / 2 * 2) :=
  C8_consume_equiv 2 5 3 (by decide)

/-- Claim C9: a pass whose popped name has no recipe adds the popped
quantity to `total_costs` and does nothing else: the queue just loses the
popped entry and `excess_items` and `intermediate_history` are untouched. -/
theorem C9_no_recipe_pass (rg : List Recipe) (s : SimState) (it : Item)
    (rest : List Item) (hpop : popitem s.processing_queue = some (it, rest))
    (hr : get_recipe rg it.name = none) :
    simStep rg s =
      { s with processing_queue := rest,
               total_costs := poolAdd s.total_costs it.name it.quantity } := by
  unfold simStep
  rw [hpop]
  unfold stepItem
  dsimp only
  rw [hr]

/-- A one-entry raw-material queue state. -/
def s9 : SimState := ⟨[], [], [], [⟨"W", 5⟩]⟩

/-- Witness for C9: one raw-material pass against the empty catalog. -/
theorem C9_no_recipe_pass_witness :
    simStep [] s9 =
      { s9 with processing_queue := [], total_costs := poolAdd [] "W" 5 } :=
  C9_no_recipe_pass [] s9 ⟨"W", 5⟩ [] rfl rfl

/-- Claim C10: the `catN` run returns a result whose `excess_items` and
`intermediate_history` both contain a quantity-0 entry for the drained
surplus name `n`: pool entries are never deleted, and the fully-covered
pass still records a quantity-0 history entry. -/
theorem C10_zero_quantity_entries :
    get_total_costs 40 catN [⟨"n", 2⟩, ⟨"A", 1⟩] = some c10res ∧
    (⟨"n", 0⟩ : Item) ∈ c10res.excess_items ∧
    (⟨"n", 0⟩ : Item) ∈ c10res.intermediate_history :=
  ⟨rfl, by decide, by decide⟩

/-- Claim C1 as stated is false: in the `catP` run the name `P` is
processed three times through the has-recipe branch (passes of demand 1, 1
and 2); the third demand is fully covered by the surplus banked by the
first two, so the history sum plus the final leftover (2 + 0) differs from
the sum of actual amounts produced (2 + 2 + 0 = 4). -/
theorem C1_counterexample :
    runSimG 40 catP [⟨"C", 1⟩, ⟨"B", 1⟩, ⟨"A", 1⟩] = some c1state ∧
    "P" ∈ c1state.processedSeq ∧
    poolLookup c1state.intermediate_history "P" = 2 ∧
    poolLookup c1state.excess_items "P" = 0 ∧
    poolLookup c1state.actualG "P" = 4 ∧
    poolLookup c1state.intermediate_history "P" + poolLookup c1state.excess_items "P"
      ≠ poolLookup c1state.actualG "P" :=
  ⟨rfl, by decide, by decide, by decide, by decide, by decide⟩

/-- Claim C1 (amended): for every name, the history recorded plus the final
surplus leftover plus the total surplus consumed for that name equals the
total actual amount produced for it plus the total byproduct amount banked
under it (all per-name ghost totals of the instrumented run). -/
theorem C1_conservation (fuel : Nat) (rg : List Recipe) (items : List Item)
    (s : SimStateG) (hball : ∀ r ∈ rg, 1 ≤ r.main_product.quantity)
    (hrun : runSimG fuel rg items = some s) (n : String) :
    poolLookup s.intermediate_history n + poolLookup s.excess_items n
      + poolLookup s.consumedG n
    = poolLookup s.actualG n + poolLookup s.bypG n :=
  consInv_runSimG fuel rg items s hball hrun n

/-- Witness for the amended C1 at the scenario A run and the name
Wood Plank. -/
theorem C1_conservation_witness :
    poolLookup cAstate.intermediate_history "Wood Plank"
      + poolLookup cAstate.excess_items "Wood Plank"
      + poolLookup cAstate.consumedG "Wood Plank"
    = poolLookup cAstate.actualG "Wood Plank"
      + poolLookup cAstate.bypG "Wood Plank" :=
  C1_conservation 20 catA [⟨"Wood Plank", 5⟩] cAstate (by decide) rfl "Wood Plank"

/-- Claim C2 as stated is false: in the `cat2` run the requests A then B
are slotted into the queue in that order (slot order A, B, Y, X), but the
LIFO pop processes B first, so the returned history lists B before A, not
in slot order. -/
theorem C2_counterexample :
    runSimG 40 cat2 [⟨"A", 1⟩, ⟨"B", 1⟩] = some c2state ∧
    poolNames c2state.intermediate_history = ["B", "A"] ∧
    c2state.slotOrder = ["A", "B", "Y", "X"] ∧
    poolNames c2state.intermediate_history ≠
      c2state.slotOrder.filter
        (fun n => decide (n ∈ poolNames c2state.intermediate_history)) :=
  ⟨rfl, by decide, by decide, by decide⟩

/-- Claim C2 (amended): the returned `intermediate_history` is the history
pool in insertion order, and its names are exactly the distinct processed
names in the order they were first processed through the has-recipe branch
(in general not the queue slot order, and not sorted by quantity). -/
theorem C2_history_order (fuel : Nat) (rg : List Recipe) (items : List Item)
    (s : SimStateG) (hrun : runSimG fuel rg items = some s) :
    get_total_costs fuel rg items =
      some ⟨sortDesc s.total_costs, sortDesc s.excess_items, s.intermediate_history⟩ ∧
    poolNames s.intermediate_history = firstDedup s.processedSeq := by
  constructor
  · rw [get_total_costs_eq_runSimG, hrun]
    rfl
  · exact histOrderInv_runSimG fuel rg items s hrun

/-- Witness for the amended C2 at the scenario A run. -/
theorem C2_history_order_witness :
    get_total_costs 20 catA [⟨"Wood Plank", 5⟩] =
      some ⟨sortDesc cAstate.total_costs, sortDesc cAstate.excess_items,
        cAstate.intermediate_history⟩ ∧
    poolNames cAstate.intermediate_history = firstDedup cAstate.processedSeq :=
  C2_history_order 20 catA [⟨"Wood Plank", 5⟩] cAstate rfl

/-- Claim C5: rendering the tree built for one Wooden Pickaxe against the
scenario B catalog yields exactly the expected six lines, with the batch
overproduction markers and the connector and indentation rules. -/
theorem C5_render_scenario :
    (buildTree 5 catB ⟨"Wooden Pickaxe", 1⟩).map (fun t => render t 0 true "") =
      some ("Wooden Pickaxe x1\n|-Stick x2 (+2)\n| \\-Wood Plank x2 (+2)\n"
        ++ "|   \\-Log x1\n\\-Wood Plank x3 (+1)\n  \\-Log x1") := rfl

/-- The value `a` is the least multiple of `b` that is at least `m`. -/
def leastMultipleGE (b m a : Nat) : Prop :=
  b ∣ a ∧ m ≤ a ∧ ∀ k, b ∣ k → m ≤ k → a ≤ k

/-- The per-node property of claim C6: a leaf keeps the requested quantity
and has no children or byproducts; a node with a recipe produces the least
batch multiple covering the request. -/
def nodeSpec (rg : List Recipe) (t : IngredientTree) : Prop :=
  match get_recipe rg t.item.name with
  | none => t.actual_quantity = t.item.quantity ∧ t.children = [] ∧ t.byproducts = []
  | some r => leastMultipleGE r.main_product.quantity t.item.quantity t.actual_quantity

/-- Claim C6: every node of a built tree satisfies `nodeSpec`: leaves copy
the requested quantity with no children or byproducts, recipe nodes produce
the smallest batch multiple at least the requested quantity. -/
theorem C6_tree_nodes (fuel : Nat) (rg : List Recipe) (item : Item)
    (t : IngredientTree) (hball : ∀ r ∈ rg, 1 ≤ r.main_product.quantity)
    (hbuild : buildTree fuel rg item = some t) :
    ∀ node ∈ allNodes t, nodeSpec rg node := by
  induction fuel generalizing item t with
  | zero => cases hbuild
  | succ fuel ih =>
    intro node hnode
    simp only [buildTree] at hbuild
    cases hr : get_recipe rg item.name with
    | none =>
      rw [hr] at hbuild
      dsimp only at hbuild
      have ht : t = ⟨item, item.quantity, [], []⟩ := (Option.some_inj.mp hbuild).symm
      subst ht
      rcases (mem_allNodes node _).mp hnode with rfl | ⟨c, hc, _⟩
      · unfold nodeSpec
        dsimp only
        rw [hr]
        exact ⟨rfl, rfl, rfl⟩
      · cases hc
    | some r =>
      rw [hr] at hbuild
      dsimp only at hbuild
      cases hs : seqOption (r.ingredients.map (fun ing => buildTree fuel rg
          ⟨ing.name, ing.quantity *
            get_process_times item.quantity r.main_product.quantity⟩)) with
      | none => rw [hs] at hbuild; cases hbuild
      | some cs =>
        rw [hs] at hbuild
        have ht : t = ⟨item,
            get_required_quantity item.quantity r.main_product.quantity, cs,
            r.byproducts.map (fun bp => ⟨bp.name, bp.quantity *
              get_process_times item.quantity r.main_product.quantity⟩)⟩ :=
          (Option.some_inj.mp hbuild).symm
        subst ht
        rcases (mem_allNodes node _).mp hnode with rfl | ⟨c, hc, hnc⟩
        · have hb : 1 ≤ r.main_product.quantity :=
            hball r (get_recipe_mem rg item.name r hr)
          unfold nodeSpec
          dsimp only
          rw [hr]
          exact ⟨get_required_quantity_dvd _ _, get_required_quantity_ge _ _ hb,
            fun k hk1 hk2 => get_required_quantity_least _ _ k hb hk1 hk2⟩
        · rcases List.mem_map.mp (seqOption_mem _ cs c hs hc) with ⟨ing, hing, hbc⟩
          exact ih _ c hbc node hnc

/-- Witness for C6: the leaf node built against the empty catalog. -/
theorem C6_tree_nodes_witness :
    nodeSpec [] ⟨⟨"X", 1⟩, 1, [], []⟩ :=
  C6_tree_nodes 1 [] ⟨"X", 1⟩ ⟨⟨"X", 1⟩, 1, [], []⟩ (by simp) rfl
    ⟨⟨"X", 1⟩, 1, [], []⟩ ((mem_allNodes _ _).mpr (Or.inl rfl))

theorem buildTree_stripByp (fuel : Nat) (rg : List Recipe) (item : Item) :
    buildTree fuel (stripByp rg) item = (buildTree fuel rg item).map eraseByp := by
  induction fuel generalizing item with
  | zero => rfl
  | succ fuel ih =>
    simp only [buildTree]
    rw [get_recipe_stripByp]
    cases hr : get_recipe rg item.name with
    | none =>
      dsimp only [Option.map]
      rw [eraseByp_mk]
      rfl
    | some r =>
      dsimp only [Option.map]
      have hfun : (fun ing : Item => buildTree fuel (stripByp rg)
            ⟨ing.name, ing.quantity *
              get_process_times item.quantity r.main_product.quantity⟩)
          = fun ing : Item => Option.map eraseByp (buildTree fuel rg
            ⟨ing.name, ing.quantity *
              get_process_times item.quantity r.main_product.quantity⟩) :=
        funext (fun ing => ih _)
      rw [hfun, show (fun ing : Item => Option.map eraseByp (buildTree fuel rg
            ⟨ing.name, ing.quantity *
              get_process_times item.quantity r.main_product.quantity⟩))
          = (Option.map eraseByp) ∘ (fun ing : Item => buildTree fuel rg
            ⟨ing.name, ing.quantity *
              get_process_times item.quantity r.main_product.quantity⟩) from rfl,
        ← List.map_map, seqOption_map_map]
      cases hs : seqOption (r.ingredients.map (fun ing => buildTree fuel rg
          ⟨ing.name, ing.quantity *
            get_process_times item.quantity r.main_product.quantity⟩)) with
      | none => rfl
      | some cs =>
        dsimp only [Option.map]
        rw [eraseByp_mk]
        rfl

theorem byproducts_scaled (fuel : Nat) (rg : List Recipe) (item : Item) :
    ∀ t, buildTree fuel rg item = some t → ∀ node ∈ allNodes t,
      ∀ r, get_recipe rg node.item.name = some r →
        node.byproducts = r.byproducts.map (fun bp =>
          ⟨bp.name, bp.quantity *
            get_process_times node.item.quantity r.main_product.quantity⟩) := by
  induction fuel generalizing item with
  | zero => intro t hbuild; cases hbuild
  | succ fuel ih =>
    intro t hbuild node hnode r2 hr2
    simp only [buildTree] at hbuild
    cases hr : get_recipe rg item.name with
    | none =>
      rw [hr] at hbuild
      dsimp only at hbuild
      have ht : t = ⟨item, item.quantity, [], []⟩ := (Option.some_inj.mp hbuild).symm
      subst ht
      rcases (mem_allNodes node _).mp hnode with rfl | ⟨c, hc, _⟩
      · dsimp only at hr2
        rw [hr] at hr2
        cases hr2
      · cases hc
    | some r =>
      rw [hr] at hbuild
      dsimp only at hbuild
      cases hs : seqOption (r.ingredients.map (fun ing => buildTree fuel rg
          ⟨ing.name, ing.quantity *
            get_process_times item.quantity r.main_product.quantity⟩)) with
      | none => rw [hs] at hbuild; cases hbuild
      | some cs =>
        rw [hs] at hbuild
        have ht : t = ⟨item,
            get_required_quantity item.quantity r.main_product.quantity, cs,
            r.byproducts.map (fun bp => ⟨bp.name, bp.quantity *
              get_process_times item.quantity r.main_product.quantity⟩)⟩ :=
          (Option.some_inj.mp hbuild).symm
        subst ht
        rcases (mem_allNodes node _).mp hnode with rfl | ⟨c, hc, hnc⟩
        · dsimp only at hr2 ⊢
          rw [hr] at hr2
          cases hr2
          rfl
        · rcases List.mem_map.mp (seqOption_mem _ cs c hs hc) with ⟨ing, hing, hbc⟩
          exact ih _ c hbc node hnc r2 hr2

/-- Claim C7: stripping every byproduct list from the catalog changes the
built tree only by emptying the byproduct records (children, item and
actual quantities all identical), and each node with a recipe carries
exactly the byproducts of that recipe scaled by the process count of the
node. -/
theorem C7_byproducts (fuel : Nat) (rg : List Recipe) (item : Item) :
    (buildTree fuel (stripByp rg) item = (buildTree fuel rg item).map eraseByp) ∧
    (∀ t, buildTree fuel rg item = some t → ∀ node ∈ allNodes t,
      ∀ r, get_recipe rg node.item.name = some r →
        node.byproducts = r.byproducts.map (fun bp =>
          ⟨bp.name, bp.quantity *
            get_process_times node.item.quantity r.main_product.quantity⟩)) :=
  ⟨buildTree_stripByp fuel rg item, byproducts_scaled fuel rg item⟩

/-- The scenario C tree: Wood Plank times 5 with a Sawdust byproduct. -/
def c7tree : IngredientTree :=
  (buildTree 3 catC ⟨"Wood Plank", 5⟩).getD ⟨⟨"", 0⟩, 0, [], []⟩

/-- Witness for C7: at the scenario C catalog the root byproducts are the
recipe byproducts scaled by the process count. -/
theorem C7_byproducts_witness :
    c7tree.byproducts =
      [(⟨"Sawdust", 1⟩ : Item)].map (fun bp =>
        ⟨bp.name, bp.quantity * get_process_times c7tree.item.quantity 1⟩) :=
  (C7_byproducts 3 catC ⟨"Wood Plank", 5⟩).2 c7tree rfl c7tree
    ((mem_allNodes _ _).mpr (Or.inl rfl)) ⟨⟨"Wood Plank", 1⟩, [⟨"Wood", 2⟩], [⟨"Sawdust", 1⟩]⟩ rfl

end ResourcesCalc
